import Mathlib

/-!
Verification of the tidycpu telemetry-to-plan pipeline (src/tidycpu.py).

The Python source is shallowly embedded: each helper becomes a Lean
function over `Nat`/`Int`/`ℚ` and `List Char` (Python `str`).  Counters
parsed from the counter source are non-negative integers, so counter
fields are `Nat` and deltas are `Int` (Python ints may go negative on
subtraction); percentages are exact rationals `ℚ` standing for the
Python float arithmetic.
-/

namespace TidyCpu

/-- Core classification label, as the strings HOT / WARM / COLD of the source. -/
inductive Label where
  | HOT : Label
  | WARM : Label
  | COLD : Label
deriving DecidableEq, Repr

/-- One row of `read_proc_stat`: the eight counters the source keeps per core
(user, nice, system, idle, iowait, irq, softirq, steal); fields absent from a
short line default to 0 in the source, so a snapshot is always this record. -/
structure Counters where
  user : Nat
  nice : Nat
  system : Nat
  idle : Nat
  iowait : Nat
  irq : Nat
  softirq : Nat
  steal : Nat
deriving DecidableEq, Repr

/-- `s["idle"] + s["iowait"]` of `get_core_usage`. -/
def idleOf (s : Counters) : Nat := s.idle + s.iowait

/-- `sum(s.values())` of `get_core_usage`. -/
def totalOf (s : Counters) : Nat :=
  s.user + s.nice + s.system + s.idle + s.iowait + s.irq + s.softirq + s.steal

/-- `d_idle = idle2 - idle1` (Python int subtraction, hence `Int`). -/
def dIdle (s1 s2 : Counters) : Int := (idleOf s2 : Int) - (idleOf s1 : Int)

/-- `d_total = total2 - total1`. -/
def dTotal (s1 s2 : Counters) : Int := (totalOf s2 : Int) - (totalOf s1 : Int)

/-- `usage = 0.0 if d_total == 0 else (1.0 - d_idle / d_total) * 100.0`. -/
def rawUsage (s1 s2 : Counters) : ℚ :=
  if dTotal s1 s2 = 0 then 0
  else (1 - (dIdle s1 s2 : ℚ) / (dTotal s1 s2 : ℚ)) * 100

/-- The threshold classifier of `get_core_usage`:
`usage >= 80 → HOT`, `usage >= 40 → WARM`, else `COLD`. -/
def labelOf (usage : ℚ) : Label :=
  if 80 ≤ usage then Label.HOT
  else if 40 ≤ usage then Label.WARM
  else Label.COLD

/-- Round-half-to-even to an integer, the rounding mode of Python `round`. -/
def rhe (q : ℚ) : ℤ :=
  let f := ⌊q⌋
  let r := q - (f : ℚ)
  if r < 1/2 then f
  else if 1/2 < r then f + 1
  else if 2 ∣ f then f else f + 1

/-- Python `round(x, 1)`: round to the nearest multiple of 1/10, ties to even. -/
def round1 (q : ℚ) : ℚ := (rhe (10 * q) : ℚ) / 10

/-- The `CoreStat` record of the source restricted to the fields the pipeline
consumes (`pids` and the topology fields are display-only and stay `None`
in the planner path). -/
structure CoreStat where
  core_id : Nat
  usage : ℚ
  label : Label
deriving DecidableEq, Repr

/-- The loop body of `get_core_usage` for one core: usage is stored rounded
to one decimal, the label is computed from the unrounded value. -/
def coreStatOf (cid : Nat) (s1 s2 : Counters) : CoreStat :=
  { core_id := cid
    usage := round1 (rawUsage s1 s2)
    label := labelOf (rawUsage s1 s2) }

/-- Strictly-sorted duplicate-free insertion, the building block used to model
Python `sorted(set(...))`. -/
def insertSorted (n : Nat) : List Nat → List Nat
  | [] => [n]
  | m :: rest =>
      if n < m then n :: m :: rest
      else if n = m then m :: rest
      else m :: insertSorted n rest

/-- Python `sorted(set(l))`: the increasing enumeration of the elements of `l`. -/
def sortedSet (l : List Nat) : List Nat := l.foldr insertSorted []

/-- `get_core_usage`: a snapshot is modelled as its key list plus a lookup
function (a Python dict); the source iterates `sorted(snap1.keys())` (dict
keys are unique, so this is `sortedSet keys`) and computes one `CoreStat`
per core from the two snapshots. -/
def getCoreUsage (keys : List Nat) (snap1 snap2 : Nat → Counters) : List CoreStat :=
  (sortedSet keys).map (fun cid => coreStatOf cid (snap1 cid) (snap2 cid))

/-- Componentwise monotonicity of the two snapshots of one core: no counter
wraparound between the two reads. -/
def counterLE (s1 s2 : Counters) : Prop :=
  s1.user ≤ s2.user ∧ s1.nice ≤ s2.nice ∧ s1.system ≤ s2.system ∧ s1.idle ≤ s2.idle ∧
  s1.iowait ≤ s2.iowait ∧ s1.irq ≤ s2.irq ∧ s1.softirq ≤ s2.softirq ∧ s1.steal ≤ s2.steal

instance (s1 s2 : Counters) : Decidable (counterLE s1 s2) := by
  unfold counterLE; infer_instance

/-! ### Basic facts about `sortedSet` -/

theorem mem_insertSorted (n x : Nat) (l : List Nat) :
    x ∈ insertSorted n l ↔ x = n ∨ x ∈ l := by
  induction l with
  | nil => simp [insertSorted]
  | cons m rest ih =>
      rw [insertSorted]
      split_ifs with h1 h2
      · simp [or_comm, or_assoc, or_left_comm]
      · subst h2; simp
      · simp only [List.mem_cons, ih]
        tauto

theorem sorted_insertSorted (n : Nat) (l : List Nat)
    (h : List.Sorted (· < ·) l) : List.Sorted (· < ·) (insertSorted n l) := by
  induction l with
  | nil => simp [insertSorted]
  | cons m rest ih =>
      rw [insertSorted]
      rw [List.sorted_cons] at h
      split_ifs with h1 h2
      · rw [List.sorted_cons, List.sorted_cons]
        refine ⟨?_, h.1, h.2⟩
        intro b hb
        rcases List.mem_cons.mp hb with rfl | hb
        · exact h1
        · exact lt_trans h1 (h.1 b hb)
      · exact List.sorted_cons.mpr h
      · rw [List.sorted_cons]
        refine ⟨?_, ih h.2⟩
        intro b hb
        rcases (mem_insertSorted n b rest).mp hb with rfl | hb
        · omega
        · exact h.1 b hb

theorem sorted_sortedSet (l : List Nat) : List.Sorted (· < ·) (sortedSet l) := by
  induction l with
  | nil => simp [sortedSet]
  | cons a l ih => exact sorted_insertSorted a _ ih

theorem mem_sortedSet (x : Nat) (l : List Nat) : x ∈ sortedSet l ↔ x ∈ l := by
  induction l with
  | nil => simp [sortedSet]
  | cons a l ih =>
      show x ∈ insertSorted a (sortedSet l) ↔ _
      rw [mem_insertSorted]
      simp [ih]

theorem sorted_lt_ext (l1 l2 : List Nat)
    (h1 : List.Sorted (· < ·) l1) (h2 : List.Sorted (· < ·) l2)
    (hm : ∀ x, x ∈ l1 ↔ x ∈ l2) : l1 = l2 := by
  induction l1 generalizing l2 with
  | nil =>
      cases l2 with
      | nil => rfl
      | cons b t2 => exact absurd ((hm b).mpr (List.mem_cons_self b t2)) (by simp)
  | cons a t1 ih =>
      cases l2 with
      | nil => exact absurd ((hm a).mp (List.mem_cons_self a t1)) (by simp)
      | cons b t2 =>
          rw [List.sorted_cons] at h1 h2
          have hab : a = b := by
            rcases List.mem_cons.mp ((hm a).mp (List.mem_cons_self a t1)) with h | h
            · exact h
            · rcases List.mem_cons.mp ((hm b).mpr (List.mem_cons_self b t2)) with h' | h'
              · omega
              · have := h2.1 a h
                have := h1.1 b h'
                omega
          subst hab
          have ht : ∀ x, x ∈ t1 ↔ x ∈ t2 := by
            intro x
            constructor
            · intro hx
              rcases List.mem_cons.mp ((hm x).mp (List.mem_cons_of_mem a hx)) with rfl | h
              · exact absurd (h1.1 x hx) (lt_irrefl x)
              · exact h
            · intro hx
              rcases List.mem_cons.mp ((hm x).mpr (List.mem_cons_of_mem a hx)) with rfl | h
              · exact absurd (h2.1 x hx) (lt_irrefl x)
              · exact h
          rw [ih t2 h1.2 h2.2 ht]

theorem sortedSet_eq_self (l : List Nat) (h : List.Sorted (· < ·) l) :
    sortedSet l = l :=
  sorted_lt_ext _ _ (sorted_sortedSet l) h (fun x => mem_sortedSet x l)

/-! ### Bounds for the rounding function -/

theorem rhe_nonneg (q : ℚ) (h : 0 ≤ q) : 0 ≤ rhe q := by
  have hf : (0:ℤ) ≤ ⌊q⌋ := Int.floor_nonneg.mpr h
  unfold rhe
  dsimp only
  split_ifs <;> omega

theorem rhe_le (q : ℚ) (n : ℤ) (h : q ≤ (n:ℚ)) : rhe q ≤ n := by
  have hfl : ⌊q⌋ ≤ n := by
    have := Int.floor_le_floor h
    rwa [Int.floor_intCast] at this
  unfold rhe
  dsimp only
  split_ifs with h1 h2 h3
  · exact hfl
  all_goals (try exact hfl)
  all_goals {
    have hr : (1:ℚ)/2 ≤ q - (⌊q⌋:ℚ) := not_lt.mp h1
    have hlt : ⌊q⌋ < n := by
      have : ((⌊q⌋:ℤ):ℚ) < (n:ℚ) := by linarith
      exact_mod_cast this
    omega }

theorem round1_nonneg (q : ℚ) (h : 0 ≤ q) : 0 ≤ round1 q := by
  unfold round1
  apply div_nonneg _ (by norm_num)
  exact_mod_cast rhe_nonneg (10 * q) (by linarith)

theorem round1_le_100 (q : ℚ) (h : q ≤ 100) : round1 q ≤ 100 := by
  have h1 : rhe (10 * q) ≤ 1000 := rhe_le (10 * q) 1000 (by push_cast; linarith)
  unfold round1
  rw [div_le_iff₀ (by norm_num)]
  calc ((rhe (10 * q) : ℚ)) ≤ (1000 : ℤ) := by exact_mod_cast h1
    _ = 100 * 10 := by norm_num

theorem rhe_zero : rhe 0 = 0 := by
  unfold rhe
  dsimp only
  rw [Int.floor_zero]
  norm_num

theorem round1_zero : round1 0 = 0 := by
  unfold round1
  rw [mul_zero, rhe_zero]
  norm_num

/-! ### Claims about the telemetry sampler -/

/-- C5: for every pair of counter snapshots and every core whose total counter
delta between the two snapshots is zero, the sampler computes a usage of
exactly 0; the division is guarded by the `d_total == 0` test and is never
performed with a zero denominator. -/
theorem zero_total_delta_gives_zero_usage
    (keys : List Nat) (snap1 snap2 : Nat → Counters) (st : CoreStat)
    (hst : st ∈ getCoreUsage keys snap1 snap2)
    (h0 : dTotal (snap1 st.core_id) (snap2 st.core_id) = 0) :
    st.usage = 0 := by
  obtain ⟨cid, _, rfl⟩ := List.mem_map.mp hst
  have hcid : (coreStatOf cid (snap1 cid) (snap2 cid)).core_id = cid := rfl
  rw [hcid] at h0
  show round1 (rawUsage (snap1 cid) (snap2 cid)) = 0
  rw [rawUsage, if_pos h0, round1_zero]

/-- The all-zero counter row. -/
def zeroCtr : Counters := ⟨0, 0, 0, 0, 0, 0, 0, 0⟩

/-- A counter row with one unit of busy (user) time. -/
def busyCtr : Counters := ⟨1, 0, 0, 0, 0, 0, 0, 0⟩

theorem zero_total_delta_gives_zero_usage_witness :
    (coreStatOf 0 zeroCtr zeroCtr) ∈ getCoreUsage [0] (fun _ => zeroCtr) (fun _ => zeroCtr) ∧
    dTotal zeroCtr zeroCtr = 0 ∧
    (coreStatOf 0 zeroCtr zeroCtr).usage = 0 := by
  have hmem : (coreStatOf 0 zeroCtr zeroCtr) ∈
      getCoreUsage [0] (fun _ => zeroCtr) (fun _ => zeroCtr) := by
    simp [getCoreUsage, sortedSet, insertSorted]
  refine ⟨hmem, by decide, ?_⟩
  exact zero_total_delta_gives_zero_usage [0] _ _ _ hmem (by decide)

theorem rawUsage_bounds (s1 s2 : Counters) (h : counterLE s1 s2) :
    0 ≤ rawUsage s1 s2 ∧ rawUsage s1 s2 ≤ 100 := by
  obtain ⟨h1, h2, h3, h4, h5, h6, h7, h8⟩ := h
  rw [rawUsage]
  split_ifs with hz
  · norm_num
  · have hi : 0 ≤ dIdle s1 s2 := by unfold dIdle idleOf; omega
    have hit : dIdle s1 s2 ≤ dTotal s1 s2 := by
      unfold dIdle dTotal idleOf totalOf; omega
    have ht : 0 < dTotal s1 s2 := by omega
    have htq : (0:ℚ) < (dTotal s1 s2 : ℚ) := by exact_mod_cast ht
    have hdiv0 : (0:ℚ) ≤ (dIdle s1 s2 : ℚ) / (dTotal s1 s2 : ℚ) :=
      div_nonneg (by exact_mod_cast hi) htq.le
    have hdiv1 : (dIdle s1 s2 : ℚ) / (dTotal s1 s2 : ℚ) ≤ 1 :=
      (div_le_one htq).mpr (by exact_mod_cast hit)
    constructor <;> nlinarith

/-- C6: whenever every counter field of the second snapshot is at least the
corresponding field of the first (monotone counters, no wraparound), every
usage value the sampler returns lies in [0, 100]. -/
theorem sampler_usage_in_range
    (keys : List Nat) (snap1 snap2 : Nat → Counters)
    (hmono : ∀ cid ∈ keys, counterLE (snap1 cid) (snap2 cid)) :
    ∀ st ∈ getCoreUsage keys snap1 snap2, 0 ≤ st.usage ∧ st.usage ≤ 100 := by
  intro st hst
  obtain ⟨cid, hcid, rfl⟩ := List.mem_map.mp hst
  have hk : cid ∈ keys := (mem_sortedSet cid keys).mp hcid
  have hb := rawUsage_bounds _ _ (hmono cid hk)
  exact ⟨round1_nonneg _ hb.1, round1_le_100 _ hb.2⟩

theorem sampler_usage_in_range_witness :
    counterLE zeroCtr busyCtr ∧
    0 ≤ (coreStatOf 0 zeroCtr busyCtr).usage ∧
    (coreStatOf 0 zeroCtr busyCtr).usage ≤ 100 := by
  have hmem : (coreStatOf 0 zeroCtr busyCtr) ∈
      getCoreUsage [0] (fun _ => zeroCtr) (fun _ => busyCtr) := by
    simp [getCoreUsage, sortedSet, insertSorted]
  refine ⟨by decide, ?_⟩
  exact sampler_usage_in_range [0] _ _ (by decide) _ hmem

/-- A second snapshot giving a raw usage of exactly 79.99 percent:
busy delta 7999, idle delta 2001, total delta 10000. -/
def borderCtr : Counters := ⟨7999, 0, 0, 2001, 0, 0, 0, 0⟩

theorem rawUsage_border : rawUsage zeroCtr borderCtr = 7999/100 := by
  rw [rawUsage]
  rw [if_neg (by decide)]
  have h1 : dIdle zeroCtr borderCtr = 2001 := by decide
  have h2 : dTotal zeroCtr borderCtr = 10000 := by decide
  rw [h1, h2]
  norm_num

theorem round1_border : round1 (7999/100) = 80 := by
  have h10 : (10:ℚ) * (7999/100) = 7999/10 := by norm_num
  have hfl : ⌊(7999:ℚ)/10⌋ = 799 := by
    rw [Int.floor_eq_iff]
    norm_num
  unfold round1 rhe
  rw [h10, hfl]
  dsimp only
  rw [if_neg (by norm_num), if_pos (by norm_num)]
  norm_num

/-- C3 counterexample: with busy delta 7999 and idle delta 2001 out of a
total delta 10000 the raw usage is 79.99, the stored (reported) usage is
its rounding 80.0, yet the stored label is WARM, not HOT: classification
uses the unrounded value, so the claim "label is HOT iff the rounded
usage >= 80" fails on this core. -/
theorem classification_uses_rounded_counterexample :
    (coreStatOf 0 zeroCtr borderCtr).usage = 80 ∧
    80 ≤ (coreStatOf 0 zeroCtr borderCtr).usage ∧
    (coreStatOf 0 zeroCtr borderCtr).label ≠ Label.HOT := by
  have hu : (coreStatOf 0 zeroCtr borderCtr).usage = 80 := by
    show round1 (rawUsage zeroCtr borderCtr) = 80
    rw [rawUsage_border, round1_border]
  refine ⟨hu, le_of_eq hu.symm, ?_⟩
  show labelOf (rawUsage zeroCtr borderCtr) ≠ Label.HOT
  rw [rawUsage_border, labelOf]
  rw [if_neg (by norm_num), if_pos (by norm_num)]
  decide

/-- C3 amended: for every CoreStat produced by the sampler, the label is
determined by the fixed thresholds applied to the UNROUNDED usage value
(HOT iff raw >= 80, WARM iff 40 <= raw < 80, COLD iff raw < 40), while the
stored (reported) usage is the raw value rounded to one decimal place. -/
theorem classification_uses_raw_usage
    (keys : List Nat) (snap1 snap2 : Nat → Counters) (st : CoreStat)
    (hst : st ∈ getCoreUsage keys snap1 snap2) :
    (st.label = Label.HOT ↔ 80 ≤ rawUsage (snap1 st.core_id) (snap2 st.core_id)) ∧
    (st.label = Label.WARM ↔ 40 ≤ rawUsage (snap1 st.core_id) (snap2 st.core_id) ∧
      rawUsage (snap1 st.core_id) (snap2 st.core_id) < 80) ∧
    (st.label = Label.COLD ↔ rawUsage (snap1 st.core_id) (snap2 st.core_id) < 40) ∧
    st.usage = round1 (rawUsage (snap1 st.core_id) (snap2 st.core_id)) := by
  obtain ⟨cid, _, rfl⟩ := List.mem_map.mp hst
  have hcid : (coreStatOf cid (snap1 cid) (snap2 cid)).core_id = cid := rfl
  rw [hcid]
  set u := rawUsage (snap1 cid) (snap2 cid) with hu
  have hl : (coreStatOf cid (snap1 cid) (snap2 cid)).label = labelOf u := rfl
  have husage : (coreStatOf cid (snap1 cid) (snap2 cid)).usage = round1 u := rfl
  rw [hl, husage, labelOf]
  by_cases h80 : 80 ≤ u
  · rw [if_pos h80]
    refine ⟨⟨fun _ => h80, fun _ => rfl⟩, ?_, ?_, rfl⟩
    · constructor
      · intro h; exact absurd h (by decide)
      · rintro ⟨-, hlt⟩; linarith
    · constructor
      · intro h; exact absurd h (by decide)
      · intro hlt; linarith
  · rw [if_neg h80]
    by_cases h40 : 40 ≤ u
    · rw [if_pos h40]
      refine ⟨?_, ⟨fun _ => ⟨h40, not_le.mp h80⟩, fun _ => rfl⟩, ?_, rfl⟩
      · constructor
        · intro h; exact absurd h (by decide)
        · intro h; linarith
      · constructor
        · intro h; exact absurd h (by decide)
        · intro h; linarith
    · rw [if_neg h40]
      refine ⟨?_, ?_, ⟨fun _ => not_le.mp h40, fun _ => rfl⟩, rfl⟩
      · constructor
        · intro h; exact absurd h (by decide)
        · intro h; linarith
      · constructor
        · intro h; exact absurd h (by decide)
        · rintro ⟨h, -⟩; linarith

theorem classification_uses_raw_usage_witness :
    ((coreStatOf 0 zeroCtr busyCtr).label = Label.HOT ↔ 80 ≤ rawUsage zeroCtr busyCtr) ∧
    (coreStatOf 0 zeroCtr busyCtr).usage = round1 (rawUsage zeroCtr busyCtr) := by
  have hmem : (coreStatOf 0 zeroCtr busyCtr) ∈
      getCoreUsage [0] (fun _ => zeroCtr) (fun _ => busyCtr) := by
    simp [getCoreUsage, sortedSet, insertSorted]
  have h := classification_uses_raw_usage [0] (fun _ => zeroCtr) (fun _ => busyCtr) _ hmem
  exact ⟨h.1, h.2.2.2⟩

/-! ### The rebalance planner -/

/-- `ProcessInfo` restricted to the fields the planner reads (the `threads`
list is display-only and never consulted by `build_rebalance_plan`). -/
structure ProcessInfo where
  pid : Nat
  name : String
  cpu_percent : ℚ
  current_cores : List Nat
  affinity_mask : List Char
deriving DecidableEq, Repr

/-- `RebalanceAction` of the source: created by the planner with
`manual_only = False` and `error_msg = ""`. -/
structure RebalanceAction where
  pid : Nat
  name : String
  cpu_percent : ℚ
  from_cores : List Nat
  to_cores : List Nat
  manual_only : Bool := false
  error_msg : String := ""
deriving DecidableEq, Repr

/-- `hot_ids = {c.core_id for c in core_stats if c.label == "HOT"}` (a set:
only membership is ever used). -/
def hotIds (core_stats : List CoreStat) : List Nat :=
  (core_stats.filter (fun c => c.label == Label.HOT)).map (fun c => c.core_id)

/-- `cold_ids = [c.core_id for c in core_stats if c.label == "COLD"]`. -/
def coldIds (core_stats : List CoreStat) : List Nat :=
  (core_stats.filter (fun c => c.label == Label.COLD)).map (fun c => c.core_id)

/-- The conflict test of `build_rebalance_plan`:
`len(on_hot) > 0 and len(cold_ids) > 0 and len(current_cores) < len(core_stats)`. -/
def conflictB (core_stats : List CoreStat) (p : ProcessInfo) : Bool :=
  !(p.current_cores.filter (fun c => (hotIds core_stats).contains c)).isEmpty &&
  !(coldIds core_stats).isEmpty &&
  decide (p.current_cores.length < core_stats.length)

/-- The action record the planner emits for a conflicting process. -/
def mkAction (p : ProcessInfo) (dest : List Nat) : RebalanceAction :=
  { pid := p.pid, name := p.name, cpu_percent := p.cpu_percent,
    from_cores := p.current_cores, to_cores := dest }

/-- The per-process loop of `build_rebalance_plan`.  `rem` is the list of
cold core-ids still available in the finite iterator
`iter(cold_ids * (len(processes) + 1))`; drawing `need` ids succeeds when
`need ≤ rem.length` and otherwise raises `StopIteration` mid-comprehension
(consuming the iterator entirely), which the source catches and answers
with `cold_ids[:need] or cold_ids[:1]`. -/
def planLoop (core_stats : List CoreStat) : List Nat → List ProcessInfo → List RebalanceAction
  | _, [] => []
  | rem, p :: ps =>
      if conflictB core_stats p then
        let need := p.current_cores.length
        if need ≤ rem.length then
          mkAction p (rem.take need) :: planLoop core_stats (rem.drop need) ps
        else
          let fallback := (coldIds core_stats).take need
          let dest := if fallback.isEmpty then (coldIds core_stats).take 1 else fallback
          mkAction p dest :: planLoop core_stats [] ps
      else
        planLoop core_stats rem ps

/-- `build_rebalance_plan(core_stats, processes)`; the local `core_pid_map`
of the source is computed but never read afterwards, so it is omitted. -/
def build_rebalance_plan (core_stats : List CoreStat) (processes : List ProcessInfo) :
    List RebalanceAction :=
  planLoop core_stats
    ((List.replicate (processes.length + 1) (coldIds core_stats)).flatten)
    processes

/-- The cold core-ids drawn by a plan, concatenated in emission order. -/
def drawsOf (actions : List RebalanceAction) : List Nat :=
  (actions.map (fun a => a.to_cores)).flatten

/-- The total number of cold-core draws a planning call makes: one per
current core of each conflicting process. -/
def demandOf (core_stats : List CoreStat) (processes : List ProcessInfo) : Nat :=
  ((processes.filter (conflictB core_stats)).map (fun p => p.current_cores.length)).sum

/-- The first `n` entries of the infinite periodic repetition of `cold`. -/
def cyclicTake (cold : List Nat) (n : Nat) : List Nat :=
  (List.range n).map (fun k => cold.getD (k % cold.length) 0)

theorem length_flatten_replicate (m : Nat) (l : List Nat) :
    ((List.replicate m l).flatten).length = m * l.length := by
  rw [List.length_flatten, List.map_replicate, List.sum_replicate, smul_eq_mul]

theorem flatten_replicate_getD (m : Nat) (l : List Nat) :
    ∀ k, k < m * l.length →
      ((List.replicate m l).flatten).getD k 0 = l.getD (k % l.length) 0 := by
  induction m with
  | zero => intro k hk; omega
  | succ m ih =>
      intro k hk
      rw [Nat.succ_mul] at hk
      have hrep : List.replicate (m + 1) l = l :: List.replicate m l :=
        List.replicate_succ l m
      rw [hrep, List.flatten_cons]
      by_cases hkl : k < l.length
      · rw [List.getD_append _ _ _ _ hkl, Nat.mod_eq_of_lt hkl]
      · have hge : l.length ≤ k := not_lt.mp hkl
        rw [List.getD_append_right _ _ _ _ hge]
        have hsub : k - l.length < m * l.length := by omega
        rw [ih (k - l.length) hsub]
        have hmod : (k - l.length) % l.length = k % l.length := by
          conv_rhs => rw [show k = k - l.length + l.length by omega]
          rw [Nat.add_mod_right]
        rw [hmod]

/-- The drawing invariant of `planLoop`: as long as the remaining pool covers
the total demand of the processes, the cold ids drawn are exactly the next
`demand` entries of the pool. -/
theorem draws_planLoop (core_stats : List CoreStat) :
    ∀ (ps : List ProcessInfo) (rem : List Nat),
      demandOf core_stats ps ≤ rem.length →
      drawsOf (planLoop core_stats rem ps) = rem.take (demandOf core_stats ps) := by
  intro ps
  induction ps with
  | nil => intro rem _; simp [planLoop, drawsOf, demandOf]
  | cons p ps ih =>
      intro rem h
      by_cases hc : conflictB core_stats p
      · have hdem : demandOf core_stats (p :: ps) =
            p.current_cores.length + demandOf core_stats ps := by
          simp [demandOf, List.filter_cons, hc]
        rw [hdem] at h ⊢
        have hneed : p.current_cores.length ≤ rem.length := by omega
        rw [planLoop, if_pos hc]
        dsimp only
        rw [if_pos hneed]
        have hrest : demandOf core_stats ps ≤ (rem.drop p.current_cores.length).length := by
          rw [List.length_drop]; omega
        have hdraws : drawsOf (mkAction p (rem.take p.current_cores.length) ::
            planLoop core_stats (rem.drop p.current_cores.length) ps) =
            rem.take p.current_cores.length ++
              drawsOf (planLoop core_stats (rem.drop p.current_cores.length) ps) := by
          simp [drawsOf, mkAction]
        rw [hdraws, ih _ hrest, ← List.take_add]
      · have hdem : demandOf core_stats (p :: ps) = demandOf core_stats ps := by
          simp [demandOf, List.filter_cons, hc]
        rw [hdem] at h
        rw [planLoop, if_neg hc, hdem]
        exact ih rem h

/-- C1 (amended): as long as the total demand of the call fits the finite
replicated pool `cold_ids * (len(processes) + 1)`, the cold core-ids drawn
for the emitted actions, concatenated in emission order, are exactly the
first `demand` entries of the infinite periodic repetition of `cold_ids`
(the k-th draw is `cold_ids[k % len(cold_ids)]`, the cursor continuing
across processes); when the demand exceeds that pool the iterator is
exhausted and the source falls back to a plain prefix of `cold_ids`. -/
theorem round_robin_draws (core_stats : List CoreStat) (processes : List ProcessInfo)
    (h : demandOf core_stats processes ≤
      (coldIds core_stats).length * (processes.length + 1)) :
    drawsOf (build_rebalance_plan core_stats processes) =
      cyclicTake (coldIds core_stats) (demandOf core_stats processes) := by
  have hpool : ((List.replicate (processes.length + 1) (coldIds core_stats)).flatten).length =
      (processes.length + 1) * (coldIds core_stats).length :=
    length_flatten_replicate _ _
  have hle : demandOf core_stats processes ≤
      ((List.replicate (processes.length + 1) (coldIds core_stats)).flatten).length := by
    rw [hpool, Nat.mul_comm]; exact h
  rw [build_rebalance_plan, draws_planLoop core_stats processes _ hle]
  apply List.ext_getElem
  · rw [List.length_take]
    simp only [cyclicTake, List.length_map, List.length_range]
    omega
  · intro n h1 h2
    rw [List.length_take] at h1
    have hn : n < demandOf core_stats processes := by omega
    have hnp : n < ((List.replicate (processes.length + 1) (coldIds core_stats)).flatten).length := by
      omega
    rw [List.getElem_take]
    simp only [cyclicTake, List.getElem_map, List.getElem_range]
    rw [← List.getD_eq_getElem _ 0 hnp]
    exact flatten_replicate_getD _ _ n (hpool ▸ hnp)

/-- Cores 0:HOT 1:COLD 2:COLD 3:WARM — the classified-core example of the
specification. -/
def rrStats : List CoreStat :=
  [⟨0, 90, Label.HOT⟩, ⟨1, 5, Label.COLD⟩, ⟨2, 5, Label.COLD⟩, ⟨3, 50, Label.WARM⟩]

/-- Three processes all affined to the hot core 0. -/
def rrProcs : List ProcessInfo :=
  [⟨10, "a", 0, [0], ['1']⟩, ⟨11, "b", 0, [0], ['1']⟩, ⟨12, "c", 0, [0], ['1']⟩]

theorem round_robin_draws_witness :
    demandOf rrStats rrProcs ≤ (coldIds rrStats).length * (rrProcs.length + 1) ∧
    drawsOf (build_rebalance_plan rrStats rrProcs) =
      cyclicTake (coldIds rrStats) (demandOf rrStats rrProcs) ∧
    drawsOf (build_rebalance_plan rrStats rrProcs) = [1, 2, 1] :=
  ⟨by decide, round_robin_draws rrStats rrProcs (by decide), by decide⟩

/-- Seven cores, one HOT, two COLD; two conflicting processes whose demand
3 + 4 = 7 exceeds the finite pool `[1,2] * 3`. -/
def cexStats : List CoreStat :=
  [⟨0, 90, Label.HOT⟩, ⟨1, 5, Label.COLD⟩, ⟨2, 5, Label.COLD⟩, ⟨3, 50, Label.WARM⟩,
   ⟨4, 50, Label.WARM⟩, ⟨5, 50, Label.WARM⟩, ⟨6, 50, Label.WARM⟩]

def cexProcs : List ProcessInfo :=
  [⟨100, "p1", 0, [0, 3, 4], ['1']⟩, ⟨101, "p2", 0, [0, 3, 4, 5], ['1']⟩]

/-- C1 counterexample: on `cexStats`/`cexProcs` the finite iterator
`cold_ids * (len(processes)+1) = [1,2,1,2,1,2]` is exhausted by the second
process (demand 3 + 4 = 7 > 6), the source falls back to `cold_ids[:4] = [1,2]`,
and the emitted draws `[1,2,1] ++ [1,2]` are NOT the initial segment
`[1,2,1,2,1,2,1]` of the infinite periodic repetition of `cold_list`
(at position 3 the cycle says 2, the plan draws 1, and only 5 of the 7
demanded ids are drawn): the cycle is not logically infinite. -/
theorem round_robin_draws_counterexample :
    ¬ (drawsOf (build_rebalance_plan cexStats cexProcs) =
        cyclicTake (coldIds cexStats) (demandOf cexStats cexProcs)) := by
  decide

/-- The length-preservation invariant of `planLoop` when the pool suffices. -/
theorem planLoop_breadth (core_stats : List CoreStat) :
    ∀ (ps : List ProcessInfo) (rem : List Nat),
      demandOf core_stats ps ≤ rem.length →
      ∀ a ∈ planLoop core_stats rem ps, a.to_cores.length = a.from_cores.length := by
  intro ps
  induction ps with
  | nil => intro rem _ a ha; simp [planLoop] at ha
  | cons p ps ih =>
      intro rem h a ha
      by_cases hc : conflictB core_stats p
      · have hdem : demandOf core_stats (p :: ps) =
            p.current_cores.length + demandOf core_stats ps := by
          simp [demandOf, List.filter_cons, hc]
        rw [hdem] at h
        have hneed : p.current_cores.length ≤ rem.length := by omega
        rw [planLoop, if_pos hc] at ha
        dsimp only at ha
        rw [if_pos hneed] at ha
        rcases List.mem_cons.mp ha with rfl | ha
        · show (rem.take p.current_cores.length).length = p.current_cores.length
          rw [List.length_take]
          omega
        · exact ih (rem.drop p.current_cores.length)
            (by rw [List.length_drop]; omega) a ha
      · have hdem : demandOf core_stats (p :: ps) = demandOf core_stats ps := by
          simp [demandOf, List.filter_cons, hc]
        rw [planLoop, if_neg hc] at ha
        exact ih rem (by omega) a ha

/-- C2 (amended): provided the total draw demand fits the finite replicated
pool `cold_ids * (len(processes) + 1)` — which holds in particular whenever
no process needs more draws than the pool offers — every emitted action has
`len(to_cores) == len(from_cores)`; when the pool is exhausted the source
falls back to `cold_ids[:need]`, which can be strictly shorter. -/
theorem plan_preserves_breadth (core_stats : List CoreStat) (processes : List ProcessInfo)
    (h : demandOf core_stats processes ≤
      (coldIds core_stats).length * (processes.length + 1))
    (a : RebalanceAction) (ha : a ∈ build_rebalance_plan core_stats processes) :
    a.to_cores.length = a.from_cores.length := by
  have hle : demandOf core_stats processes ≤
      ((List.replicate (processes.length + 1) (coldIds core_stats)).flatten).length := by
    rw [length_flatten_replicate, Nat.mul_comm]; exact h
  exact planLoop_breadth core_stats processes _ hle a ha

theorem plan_preserves_breadth_witness :
    demandOf rrStats rrProcs ≤ (coldIds rrStats).length * (rrProcs.length + 1) ∧
    (mkAction ⟨10, "a", 0, [0], ['1']⟩ [1]) ∈ build_rebalance_plan rrStats rrProcs ∧
    (mkAction ⟨10, "a", 0, [0], ['1']⟩ [1]).to_cores.length =
      (mkAction ⟨10, "a", 0, [0], ['1']⟩ [1]).from_cores.length :=
  ⟨by decide, by decide,
    plan_preserves_breadth rrStats rrProcs (by decide) _ (by decide)⟩

/-- Four cores with a single COLD core; one process on three cores, so its
demand 3 exceeds the pool `[1] * 2`. -/
def c2Stats : List CoreStat :=
  [⟨0, 90, Label.HOT⟩, ⟨1, 5, Label.COLD⟩, ⟨2, 50, Label.WARM⟩, ⟨3, 50, Label.WARM⟩]

def c2Procs : List ProcessInfo := [⟨200, "q", 0, [0, 2, 3], ['d']⟩]

/-- C2 counterexample: with non-empty `core_stats` (`c2Stats`) the plan for
`c2Procs` contains an action with `from_cores = [0,2,3]` but
`to_cores = [1]` — the iterator `[1,1]` is exhausted after two of the three
draws and the fallback `cold_ids[:3] = [1]` shrinks the breadth. -/
theorem plan_preserves_breadth_counterexample :
    c2Stats ≠ [] ∧
    ¬ (∀ a ∈ build_rebalance_plan c2Stats c2Procs,
        a.to_cores.length = a.from_cores.length) := by
  decide

/-- The detected core-ids, in `core_stats` order. -/
def statIds (core_stats : List CoreStat) : List Nat :=
  core_stats.map (fun c => c.core_id)

/-- "The process's current affinity already spans every detected core". -/
def spansAll (core_stats : List CoreStat) (p : ProcessInfo) : Bool :=
  (statIds core_stats).all (fun i => p.current_cores.contains i)

/-- The conflict condition as the specification words it: the current cores
intersect a HOT core, a COLD core exists, and the process does not already
span every detected core. -/
def specConflictB (core_stats : List CoreStat) (p : ProcessInfo) : Bool :=
  p.current_cores.any (fun c => (hotIds core_stats).contains c) &&
  !(coldIds core_stats).isEmpty &&
  !spansAll core_stats p

/-- `planLoop` emits one action per conflicting process, in input order,
carrying that process's pid and current cores, whatever the pool state. -/
theorem planLoop_keys (core_stats : List CoreStat) :
    ∀ (ps : List ProcessInfo) (rem : List Nat),
      (planLoop core_stats rem ps).map (fun a => (a.pid, a.from_cores)) =
        (ps.filter (conflictB core_stats)).map (fun p => (p.pid, p.current_cores)) := by
  intro ps
  induction ps with
  | nil => intro rem; simp [planLoop]
  | cons p ps ih =>
      intro rem
      by_cases hc : conflictB core_stats p
      · rw [planLoop, if_pos hc, List.filter_cons, if_pos hc]
        dsimp only
        split_ifs <;> simp only [List.map_cons, ih] <;> rfl
      · rw [planLoop, if_neg hc, List.filter_cons, if_neg hc]
        exact ih rem

theorem nodup_subset_length_le {l1 l2 : List Nat} (h1 : l1.Nodup) (h : l1 ⊆ l2) :
    l1.length ≤ l2.length := by
  have hsub : l1.toFinset ⊆ l2.toFinset := by
    intro a ha
    rw [List.mem_toFinset] at *
    exact h ha
  calc l1.length = l1.toFinset.card := (List.toFinset_card_of_nodup h1).symm
    _ ≤ l2.toFinset.card := Finset.card_le_card hsub
    _ ≤ l2.length := List.toFinset_card_le l2

theorem not_isEmpty_filter_eq_any (q : Nat → Bool) (l : List Nat) :
    (!(l.filter q).isEmpty) = l.any q := by
  induction l with
  | nil => rfl
  | cons a l ih =>
      rw [List.filter_cons, List.any_cons]
      cases hq : q a
      · rw [if_neg (by simp [hq]), Bool.false_or]
        exact ih
      · rw [if_pos (by simp [hq]), Bool.true_or]
        simp

/-- Under the data-model typing of `current_cores` (a duplicate-free set of
detected core-ids), the cardinality test of the source agrees with the
spec-side "does not span every detected core" condition. -/
theorem conflictB_eq_specConflictB (core_stats : List CoreStat) (p : ProcessInfo)
    (hids : (statIds core_stats).Nodup)
    (hnd : p.current_cores.Nodup) (hsub : p.current_cores ⊆ statIds core_stats) :
    conflictB core_stats p = specConflictB core_stats p := by
  have hlen : (statIds core_stats).length = core_stats.length := List.length_map _ _
  have h3 : p.current_cores.length < core_stats.length ↔ spansAll core_stats p = false := by
    constructor
    · intro hlt
      by_contra hspan
      have hall : spansAll core_stats p = true := by
        cases hq : spansAll core_stats p
        · exact absurd hq hspan
        · rfl
      have hsubids : statIds core_stats ⊆ p.current_cores := by
        intro i hi
        have := (List.all_eq_true.mp hall) i hi
        simpa [List.elem_iff] using this
      have := nodup_subset_length_le hids hsubids
      omega
    · intro hspan
      have : ∃ i ∈ statIds core_stats, i ∉ p.current_cores := by
        by_contra hno
        push_neg at hno
        have : spansAll core_stats p = true := by
          rw [spansAll, List.all_eq_true]
          intro i hi
          simpa [List.elem_iff] using hno i hi
        rw [this] at hspan
        cases hspan
      obtain ⟨i, hi, hni⟩ := this
      have hss : p.current_cores.toFinset ⊂ (statIds core_stats).toFinset := by
        rw [Finset.ssubset_iff_of_subset]
        · exact ⟨i, List.mem_toFinset.mpr hi, fun hmem => hni (List.mem_toFinset.mp hmem)⟩
        · intro a ha
          rw [List.mem_toFinset] at *
          exact hsub ha
      have hcard := Finset.card_lt_card hss
      rw [List.toFinset_card_of_nodup hnd, List.toFinset_card_of_nodup hids] at hcard
      omega
  have hC : decide (p.current_cores.length < core_stats.length) = !spansAll core_stats p := by
    rw [Bool.eq_iff_iff, decide_eq_true_eq, Bool.not_eq_true']
    exact h3
  simp only [conflictB, specConflictB]
  rw [not_isEmpty_filter_eq_any, hC]

/-- C4: `build_rebalance_plan` emits a RebalanceAction for a process iff its
current cores intersect the HOT set, at least one COLD core exists, and the
process's current affinity does not already span every detected core; in
particular a process covering the full core set never yields an action, and
a process with no HOT overlap never yields an action.  (The source tests
`len(current_cores) < len(core_stats)`, which coincides with the span test
because `current_cores` is a duplicate-free subset of the detected ids.) -/
theorem action_iff_conflict (core_stats : List CoreStat) (processes : List ProcessInfo)
    (hids : (statIds core_stats).Nodup)
    (hprocs : ∀ p ∈ processes,
      p.current_cores.Nodup ∧ p.current_cores ⊆ statIds core_stats) :
    (build_rebalance_plan core_stats processes).map (fun a => (a.pid, a.from_cores)) =
      (processes.filter (specConflictB core_stats)).map
        (fun p => (p.pid, p.current_cores)) := by
  rw [build_rebalance_plan, planLoop_keys]
  congr 1
  apply List.filter_congr
  intro p hp
  exact conflictB_eq_specConflictB core_stats p hids (hprocs p hp).1 (hprocs p hp).2

/-- The processes of the specification's conflict examples: one pinned to the
hot core, one spanning all four cores, one sitting on a WARM core only. -/
def c4Procs : List ProcessInfo :=
  [⟨10, "a", 0, [0], ['1']⟩, ⟨20, "full", 0, [0, 1, 2, 3], ['f']⟩,
   ⟨30, "warm", 0, [3], ['8']⟩]

theorem action_iff_conflict_witness :
    (statIds rrStats).Nodup ∧
    (build_rebalance_plan rrStats c4Procs).map (fun a => (a.pid, a.from_cores)) =
      (c4Procs.filter (specConflictB rrStats)).map (fun p => (p.pid, p.current_cores)) ∧
    (c4Procs.filter (specConflictB rrStats)).map (fun p => (p.pid, p.current_cores)) =
      [(10, [0])] :=
  ⟨by decide,
    action_iff_conflict rrStats c4Procs (by decide) (by decide),
    by decide⟩

/-! ### The affinity applier -/

/-- The `(returncode, stdout, stderr)` triple the `run` helper returns for
the external `taskset -pc <cpulist> <pid>` invocation (an external
collaborator: nonexistent pid, permission denial and kernel threads all
surface as a non-zero `rc`, timeouts and a missing binary as `rc = -1`). -/
structure RunResult where
  rc : Int
  out : String
  err : String

/-- `apply_action`: on non-zero status the action is marked `manual_only`
with `error_msg = err or out or "Permission denied / kernel thread"`
(Python `or`: the first non-empty string); on zero status the action is
returned unchanged.  The function is total — it never raises. -/
def apply_action (r : RunResult) (action : RebalanceAction) : RebalanceAction :=
  if r.rc ≠ 0 then
    { action with
      manual_only := true
      error_msg :=
        if r.err ≠ "" then r.err
        else if r.out ≠ "" then r.out
        else "Permission denied / kernel thread" }
  else action

/-- The batch application `[apply_action(a) for a in actions]` of `main`,
with the external primitive's reply for each action supplied by `env`. -/
def applyAll (env : RebalanceAction → RunResult) (actions : List RebalanceAction) :
    List RebalanceAction :=
  actions.map (fun a => apply_action (env a) a)

/-- C9: when the external affinity-setting primitive reports a non-zero
status, `apply_action` returns the same action (pid, name, cpu and core
fields untouched) marked `manual_only = true` with a non-empty
`error_msg` — the primitive's diagnostic text (stderr, else stdout), or
the generic "Permission denied / kernel thread" message when both are
empty; on zero status the action comes back unchanged, i.e. still marked
applied; and the total batch map processes every action, so one failure
never aborts the rest. -/
theorem apply_action_spec (r : RunResult) (a : RebalanceAction)
    (hnot : a.manual_only = false) :
    (r.rc ≠ 0 →
      (apply_action r a).manual_only = true ∧
      (apply_action r a).error_msg ≠ "" ∧
      ((apply_action r a).error_msg = r.err ∨ (apply_action r a).error_msg = r.out ∨
        (apply_action r a).error_msg = "Permission denied / kernel thread") ∧
      (apply_action r a).pid = a.pid ∧ (apply_action r a).name = a.name ∧
      (apply_action r a).cpu_percent = a.cpu_percent ∧
      (apply_action r a).from_cores = a.from_cores ∧
      (apply_action r a).to_cores = a.to_cores) ∧
    (r.rc = 0 → apply_action r a = a ∧ (apply_action r a).manual_only = false) ∧
    (∀ (env : RebalanceAction → RunResult) (actions : List RebalanceAction),
      (applyAll env actions).length = actions.length) := by
  refine ⟨?_, ?_, ?_⟩
  · intro hrc
    rw [apply_action, if_pos hrc]
    refine ⟨rfl, ?_, ?_, rfl, rfl, rfl, rfl, rfl⟩
    · show (if r.err ≠ "" then r.err
        else if r.out ≠ "" then r.out
        else "Permission denied / kernel thread") ≠ ""
      split_ifs with h1 h2
      · exact h1
      · exact h2
      · intro h; exact absurd h (by decide)
    · show (if r.err ≠ "" then r.err
        else if r.out ≠ "" then r.out
        else "Permission denied / kernel thread") = r.err ∨ _ ∨ _
      split_ifs
      · exact Or.inl rfl
      · exact Or.inr (Or.inl rfl)
      · exact Or.inr (Or.inr rfl)
  · intro hrc
    have h0 : apply_action r a = a := by
      rw [apply_action, if_neg (by omega)]
    exact ⟨h0, by rw [h0, hnot]⟩
  · intro env actions
    rw [applyAll, List.length_map]

theorem apply_action_spec_witness :
    ((⟨7, "w", 0, [0], [1], false, ""⟩ : RebalanceAction).manual_only = false) ∧
    (apply_action ⟨1, "", ""⟩ ⟨7, "w", 0, [0], [1], false, ""⟩).manual_only = true ∧
    (apply_action ⟨1, "", ""⟩ ⟨7, "w", 0, [0], [1], false, ""⟩).error_msg ≠ "" ∧
    (apply_action ⟨0, "", ""⟩ ⟨7, "w", 0, [0], [1], false, ""⟩) =
      ⟨7, "w", 0, [0], [1], false, ""⟩ := by
  have h1 := apply_action_spec ⟨1, "", ""⟩ ⟨7, "w", 0, [0], [1], false, ""⟩ rfl
  have h0 := apply_action_spec ⟨0, "", ""⟩ ⟨7, "w", 0, [0], [1], false, ""⟩ rfl
  have hne : (1 : Int) ≠ 0 := by decide
  exact ⟨rfl, (h1.1 hne).1, (h1.1 hne).2.1, (h0.2.1 rfl).1⟩

/-! ### The cpulist textual encoding

Python strings are modelled as `List Char`. -/

/-- The decimal digits of `n`, least significant first (empty for 0);
`Nat.digitChar` is the value-to-character table of the numeral alphabet. -/
def toDigitsRev : Nat → List Char
  | 0 => []
  | n + 1 => Nat.digitChar ((n + 1) % 10) :: toDigitsRev ((n + 1) / 10)
decreasing_by exact Nat.div_lt_self (Nat.succ_pos _) (by norm_num)

/-- Python `str(n)` for a non-negative int: its decimal numeral. -/
def natToChars (n : Nat) : List Char :=
  if n = 0 then ['0'] else (toDigitsRev n).reverse

/-- Python `part.isdigit()` (over the ASCII numerals the pipeline meets). -/
def pyIsDigit (l : List Char) : Bool := !l.isEmpty && l.all Char.isDigit

/-- The value of a digit string, as Python `int` computes it. -/
def digitsToNat (l : List Char) : Nat :=
  l.foldl (fun acc c => 10 * acc + (c.toNat - 48)) 0

/-- Python `int(s)` on the non-negative decimal numerals that occur here
(raising — `none` — on anything that is not a plain digit string). -/
def pyInt (l : List Char) : Option Nat :=
  if pyIsDigit l then some (digitsToNat l) else none

/-- Python `str.strip()` (whitespace at both ends removed). -/
def pyStrip (l : List Char) : List Char :=
  ((l.dropWhile Char.isWhitespace).reverse.dropWhile Char.isWhitespace).reverse

/-- Python `s.split(c)` for a one-character separator: splits at every
occurrence, keeping empty parts (`"".split(c) == [""]`). -/
def splitOnChar (c : Char) : List Char → List (List Char)
  | [] => [[]]
  | x :: xs =>
      match splitOnChar c xs with
      | [] => [[x]]
      | p :: ps => if x = c then [] :: p :: ps else (x :: p) :: ps

/-- Python `c.join(parts)` for a one-character separator. -/
def joinWith (c : Char) : List (List Char) → List Char
  | [] => []
  | [p] => p
  | p :: q :: ps => p ++ c :: joinWith c (q :: ps)

/-- The per-part loop of `parse_cpulist`: a part containing `-` is unpacked
as `lo, hi = part.split("-")` (a `ValueError` — more or fewer than two
pieces, or a non-numeral piece — propagates, i.e. gives `none`) and
contributes `range(int(lo), int(hi)+1)`; a digit part contributes itself;
anything else is skipped. -/
def parseParts : List (List Char) → Option (List Nat)
  | [] => some []
  | part :: rest =>
      if (pyStrip part).contains '-' then
        match splitOnChar '-' (pyStrip part) with
        | [lo, hi] =>
            match pyInt lo, pyInt hi with
            | some l, some h =>
                (parseParts rest).map (fun r => List.range' l (h + 1 - l) ++ r)
            | _, _ => none
        | _ => none
      else if pyIsDigit (pyStrip part) then
        (parseParts rest).map (fun r => digitsToNat (pyStrip part) :: r)
      else
        parseParts rest

/-- `parse_cpulist`: split on commas, parse each part, and return
`sorted(set(cores))`. -/
def parse_cpulist (s : List Char) : Option (List Nat) :=
  (parseParts (splitOnChar ',' s)).map sortedSet

/-- The run-collapsing loop of `cores_to_cpulist`: state `(start, end)`
starts at the first core; a successor extends the run, anything else emits
`(start, end)` and restarts; the final run is emitted at the end. -/
def buildRuns (start e : Nat) : List Nat → List (Nat × Nat)
  | [] => [(start, e)]
  | c :: rest =>
      if c = e + 1 then buildRuns start c rest
      else (start, e) :: buildRuns c c rest

/-- `str(start) if start == end else f"{start}-{end}"`. -/
def renderRun (r : Nat × Nat) : List Char :=
  if r.1 = r.2 then natToChars r.1 else natToChars r.1 ++ '-' :: natToChars r.2

/-- `cores_to_cpulist`: empty input gives the empty string, otherwise the
runs of `sorted(set(cores))` are rendered and joined with commas. -/
def cores_to_cpulist (cores : List Nat) : List Char :=
  match sortedSet cores with
  | [] => []
  | h :: t => joinWith ',' ((buildRuns h h t).map renderRun)

/-- The core-ids a run list stands for. -/
def expandRuns (runs : List (Nat × Nat)) : List Nat :=
  (runs.map (fun r => List.range' r.1 (r.2 + 1 - r.1))).flatten

/-! ### Digit characters -/

/-- The ten decimal digit characters. -/
def decDigits : List Char := ['0', '1', '2', '3', '4', '5', '6', '7', '8', '9']

theorem digitChar_mem_decDigits (d : Nat) (h : d < 10) : Nat.digitChar d ∈ decDigits := by
  interval_cases d <;> decide

theorem digitChar_toNat (d : Nat) (h : d < 10) : (Nat.digitChar d).toNat = 48 + d := by
  interval_cases d <;> decide

theorem decDigit_props (c : Char) (h : c ∈ decDigits) :
    c.isDigit = true ∧ c.isWhitespace = false ∧ c ≠ '-' ∧ c ≠ ',' := by
  fin_cases h <;> decide

theorem toDigitsRev_mem (n : Nat) : ∀ c ∈ toDigitsRev n, c ∈ decDigits := by
  induction n using Nat.strong_induction_on with
  | _ n ih =>
      match n with
      | 0 => intro c hc; rw [toDigitsRev] at hc; cases hc
      | m + 1 =>
          intro c hc
          rw [toDigitsRev] at hc
          rcases List.mem_cons.mp hc with rfl | hc
          · exact digitChar_mem_decDigits _ (Nat.mod_lt _ (by norm_num))
          · exact ih ((m + 1) / 10) (Nat.div_lt_self (Nat.succ_pos m) (by norm_num)) c hc

theorem natToChars_mem (n : Nat) : ∀ c ∈ natToChars n, c ∈ decDigits := by
  rw [natToChars]
  split_ifs with h
  · intro c hc
    rcases List.mem_singleton.mp hc with rfl
    decide
  · intro c hc
    exact toDigitsRev_mem n c (List.mem_reverse.mp hc)

theorem natToChars_ne_nil (n : Nat) : natToChars n ≠ [] := by
  rw [natToChars]
  split_ifs with h
  · simp
  · intro heq
    have h2 : toDigitsRev n = [] := by
      have := congrArg List.reverse heq
      rwa [List.reverse_reverse, List.reverse_nil] at this
    match n, h, h2 with
    | m + 1, _, h2 => rw [toDigitsRev] at h2; cases h2

/-! ### Decimal numeral round trip -/

theorem digitsToNat_append_digit (l : List Char) (c : Char) :
    digitsToNat (l ++ [c]) = 10 * digitsToNat l + (c.toNat - 48) := by
  rw [digitsToNat, digitsToNat, List.foldl_append]
  rfl

theorem digitsToNat_toDigitsRev (n : Nat) :
    digitsToNat (toDigitsRev n).reverse = n := by
  induction n using Nat.strong_induction_on with
  | _ n ih =>
      match n with
      | 0 => rw [toDigitsRev]; rfl
      | m + 1 =>
          rw [toDigitsRev, List.reverse_cons, digitsToNat_append_digit,
            ih ((m + 1) / 10) (Nat.div_lt_self (Nat.succ_pos m) (by norm_num)),
            digitChar_toNat _ (Nat.mod_lt _ (by norm_num))]
          omega

theorem digitsToNat_natToChars (n : Nat) : digitsToNat (natToChars n) = n := by
  rw [natToChars]
  split_ifs with h
  · subst h; rfl
  · exact digitsToNat_toDigitsRev n

theorem pyIsDigit_natToChars (n : Nat) : pyIsDigit (natToChars n) = true := by
  have h1 : (natToChars n).isEmpty = false := by
    rcases hq : natToChars n with _ | ⟨c, cs⟩
    · exact absurd hq (natToChars_ne_nil n)
    · rfl
  have h2 : (natToChars n).all Char.isDigit = true :=
    List.all_eq_true.mpr fun c hc => (decDigit_props c (natToChars_mem n c hc)).1
  rw [pyIsDigit, h1, h2]
  rfl

theorem pyInt_natToChars (n : Nat) : pyInt (natToChars n) = some n := by
  rw [pyInt, if_pos (pyIsDigit_natToChars n), digitsToNat_natToChars]

/-! ### Strip and split/join -/

theorem dropWhile_eq_self_of_none (p : Char → Bool) (l : List Char)
    (h : ∀ c ∈ l, p c = false) : l.dropWhile p = l := by
  cases l with
  | nil => rfl
  | cons a l =>
      rw [List.dropWhile_cons, h a (List.mem_cons_self a l)]
      simp

theorem pyStrip_eq_self (l : List Char) (h : ∀ c ∈ l, c.isWhitespace = false) :
    pyStrip l = l := by
  rw [pyStrip, dropWhile_eq_self_of_none _ _ h,
    dropWhile_eq_self_of_none _ _ (fun c hc => h c (List.mem_reverse.mp hc)),
    List.reverse_reverse]

theorem splitOnChar_ne_nil (c : Char) (l : List Char) : splitOnChar c l ≠ [] := by
  cases l with
  | nil => simp [splitOnChar]
  | cons x xs =>
      rw [splitOnChar]
      rcases hs : splitOnChar c xs with _ | ⟨p, ps⟩
      · simp
      · split_ifs <;> simp

theorem splitOnChar_no_sep (c : Char) (l : List Char) (h : ∀ x ∈ l, x ≠ c) :
    splitOnChar c l = [l] := by
  induction l with
  | nil => rfl
  | cons x xs ih =>
      rw [splitOnChar, ih (fun y hy => h y (List.mem_cons_of_mem x hy))]
      dsimp only
      rw [if_neg (h x (List.mem_cons_self x xs))]

theorem splitOnChar_append_cons (c : Char) (p rest : List Char)
    (hp : ∀ x ∈ p, x ≠ c) :
    splitOnChar c (p ++ c :: rest) = p :: splitOnChar c rest := by
  induction p with
  | nil =>
      rw [List.nil_append, splitOnChar]
      rcases hs : splitOnChar c rest with _ | ⟨q, qs⟩
      · exact absurd hs (splitOnChar_ne_nil c rest)
      · dsimp only
        rw [if_pos rfl]
  | cons y p ih =>
      rw [List.cons_append, splitOnChar,
        ih (fun x hx => hp x (List.mem_cons_of_mem y hx))]
      dsimp only
      rw [if_neg (hp y (List.mem_cons_self y p))]

theorem joinWith_cons₂ (c : Char) (p q : List Char) (ps : List (List Char)) :
    joinWith c (p :: q :: ps) = p ++ c :: joinWith c (q :: ps) := rfl

theorem splitOnChar_joinWith (c : Char) (parts : List (List Char))
    (hne : parts ≠ []) (h : ∀ part ∈ parts, ∀ x ∈ part, x ≠ c) :
    splitOnChar c (joinWith c parts) = parts := by
  induction parts with
  | nil => exact absurd rfl hne
  | cons p ps ih =>
      cases ps with
      | nil =>
          show splitOnChar c (joinWith c [p]) = [p]
          rw [joinWith]
          exact splitOnChar_no_sep c p (h p (List.mem_cons_self p []))
      | cons q ps' =>
          rw [joinWith_cons₂,
            splitOnChar_append_cons c p _ (h p (List.mem_cons_self p _)),
            ih (by simp) (fun part hpart => h part (List.mem_cons_of_mem p hpart))]

/-! ### Parsing the rendered parts back -/

theorem natToChars_contains_dash (n : Nat) : (natToChars n).contains '-' = false := by
  cases hq : (natToChars n).contains '-' with
  | false => rfl
  | true =>
      have hmem : '-' ∈ natToChars n := List.elem_iff.mp hq
      exact absurd rfl (decDigit_props _ (natToChars_mem n _ hmem)).2.2.1

theorem parseParts_cons_digit (n : Nat) (rest : List (List Char)) :
    parseParts (natToChars n :: rest) = (parseParts rest).map (fun r => n :: r) := by
  have hstrip : pyStrip (natToChars n) = natToChars n :=
    pyStrip_eq_self _ (fun c hc => (decDigit_props c (natToChars_mem n c hc)).2.1)
  rw [parseParts, hstrip, natToChars_contains_dash]
  simp only [Bool.false_eq_true, if_false, pyIsDigit_natToChars, if_true,
    digitsToNat_natToChars]

theorem parseParts_cons_range (a b : Nat) (rest : List (List Char)) :
    parseParts ((natToChars a ++ '-' :: natToChars b) :: rest) =
      (parseParts rest).map (fun r => List.range' a (b + 1 - a) ++ r) := by
  have hmemprops : ∀ c ∈ natToChars a ++ '-' :: natToChars b,
      c ∈ decDigits ∨ c = '-' := by
    intro c hc
    rcases List.mem_append.mp hc with h | h
    · exact Or.inl (natToChars_mem a c h)
    · rcases List.mem_cons.mp h with rfl | h
      · exact Or.inr rfl
      · exact Or.inl (natToChars_mem b c h)
  have hws : ∀ c ∈ natToChars a ++ '-' :: natToChars b, c.isWhitespace = false := by
    intro c hc
    rcases hmemprops c hc with h | rfl
    · exact (decDigit_props c h).2.1
    · decide
  have hstrip : pyStrip (natToChars a ++ '-' :: natToChars b) =
      natToChars a ++ '-' :: natToChars b := pyStrip_eq_self _ hws
  have hcont : (natToChars a ++ '-' :: natToChars b).contains '-' = true :=
    List.elem_iff.mpr (List.mem_append.mpr (Or.inr (List.mem_cons_self _ _)))
  have hsplit : splitOnChar '-' (natToChars a ++ '-' :: natToChars b) =
      [natToChars a, natToChars b] := by
    rw [splitOnChar_append_cons '-' _ _
        (fun x hx => (decDigit_props x (natToChars_mem a x hx)).2.2.1),
      splitOnChar_no_sep '-' _
        (fun x hx => (decDigit_props x (natToChars_mem b x hx)).2.2.1)]
  rw [parseParts, hstrip, hcont, hsplit]
  simp only [if_true, pyInt_natToChars]

theorem expandRuns_cons (r : Nat × Nat) (rs : List (Nat × Nat)) :
    expandRuns (r :: rs) = List.range' r.1 (r.2 + 1 - r.1) ++ expandRuns rs := by
  simp [expandRuns]

theorem parseParts_renderRuns (runs : List (Nat × Nat)) :
    parseParts (runs.map renderRun) = some (expandRuns runs) := by
  induction runs with
  | nil => rfl
  | cons r rs ih =>
      rw [List.map_cons]
      by_cases hr : r.1 = r.2
      · rw [renderRun, if_pos hr, parseParts_cons_digit, ih, Option.map_some',
          expandRuns_cons]
        have h1 : r.2 + 1 - r.1 = 1 := by omega
        rw [h1, List.range'_one, hr]
        rfl
      · rw [renderRun, if_neg hr, parseParts_cons_range, ih, Option.map_some',
          expandRuns_cons]

/-! ### Expansion of the collapsed runs -/

theorem buildRuns_ne_nil (rest : List Nat) : ∀ start e, buildRuns start e rest ≠ [] := by
  induction rest with
  | nil => intro s e; simp [buildRuns]
  | cons c cs ih =>
      intro s e
      rw [buildRuns]
      split_ifs
      · exact ih s c
      · simp

theorem expand_buildRuns (rest : List Nat) : ∀ start e, start ≤ e →
    List.Chain (· < ·) e rest →
    expandRuns (buildRuns start e rest) = List.range' start (e + 1 - start) ++ rest := by
  induction rest with
  | nil =>
      intro start e hse _
      rw [buildRuns, expandRuns_cons]
      simp [expandRuns]
  | cons c cs ih =>
      intro start e hse hch
      rw [List.chain_cons] at hch
      rw [buildRuns]
      split_ifs with hc
      · rw [ih start c (by omega) hch.2]
        subst hc
        have h1 : e + 1 + 1 - start = (e + 1 - start) + 1 := by omega
        rw [h1, List.range'_1_concat]
        have h2 : start + (e + 1 - start) = e + 1 := by omega
        rw [h2, List.append_assoc]
        rfl
      · rw [expandRuns_cons, ih c c le_rfl hch.2]
        have h1 : c + 1 - c = 1 := by omega
        rw [h1, List.range'_one]
        rfl

theorem renderRun_mem (r : Nat × Nat) (x : Char) (hx : x ∈ renderRun r) :
    x ∈ decDigits ∨ x = '-' := by
  rw [renderRun] at hx
  split_ifs at hx
  · exact Or.inl (natToChars_mem r.1 x hx)
  · rcases List.mem_append.mp hx with h | h
    · exact Or.inl (natToChars_mem r.1 x h)
    · rcases List.mem_cons.mp h with rfl | h
      · exact Or.inr rfl
      · exact Or.inl (natToChars_mem r.2 x h)

theorem renderRun_ne_nil (r : Nat × Nat) : renderRun r ≠ [] := by
  rw [renderRun]
  split_ifs
  · exact natToChars_ne_nil r.1
  · intro h
    exact natToChars_ne_nil r.1 (List.append_eq_nil.mp h).1

/-! ### Claims about the cpulist encoding -/

/-- C7: the round-trip law of the core-list textual encoding: for every
list of core-ids (empty and singleton included),
`parse_cpulist(cores_to_cpulist(cores))` succeeds and returns
`sorted(set(cores))`, the sorted duplicate-free list of the input. -/
theorem cpulist_roundtrip (cores : List Nat) :
    parse_cpulist (cores_to_cpulist cores) = some (sortedSet cores) := by
  rcases hs : sortedSet cores with _ | ⟨h, t⟩
  · rw [cores_to_cpulist, hs]
    rfl
  · have hsorted : List.Sorted (· < ·) (h :: t) := by
      rw [← hs]; exact sorted_sortedSet cores
    have hchain : List.Chain (· < ·) h t := List.chain_iff_pairwise.mpr hsorted
    rw [cores_to_cpulist, hs]
    dsimp only
    rw [parse_cpulist]
    have hparts_ne : (buildRuns h h t).map renderRun ≠ [] := by
      intro heq
      exact buildRuns_ne_nil t h h (List.map_eq_nil_iff.mp heq)
    have hnocomma : ∀ part ∈ (buildRuns h h t).map renderRun, ∀ x ∈ part, x ≠ ',' := by
      intro part hpart x hx
      obtain ⟨r, _, rfl⟩ := List.mem_map.mp hpart
      rcases renderRun_mem r x hx with hd | rfl
      · exact (decDigit_props x hd).2.2.2
      · decide
    rw [splitOnChar_joinWith ',' _ hparts_ne hnocomma, parseParts_renderRuns,
      expand_buildRuns t h h le_rfl hchain]
    have h1 : h + 1 - h = 1 := by omega
    rw [h1, List.range'_one, Option.map_some']
    show some (sortedSet (h :: t)) = some (h :: t)
    rw [sortedSet_eq_self _ hsorted]

theorem sortedSet_idem (l : List Nat) : sortedSet (sortedSet l) = sortedSet l :=
  sortedSet_eq_self _ (sorted_sortedSet l)

/-- C10: the encoder normalizes its input — the output depends only on
`sorted(set(cores))`, so order and multiplicity of the input are
irrelevant — and the output is the empty string exactly for empty input. -/
theorem cores_to_cpulist_normalizes (cores : List Nat) :
    cores_to_cpulist cores = cores_to_cpulist (sortedSet cores) ∧
    (cores_to_cpulist cores = [] ↔ cores = []) := by
  constructor
  · rw [cores_to_cpulist, cores_to_cpulist, sortedSet_idem]
  · constructor
    · intro hemp
      rcases hcs : sortedSet cores with _ | ⟨h0, t0⟩
      · cases cores with
        | nil => rfl
        | cons c cs =>
            have hmem : c ∈ sortedSet (c :: cs) :=
              (mem_sortedSet c (c :: cs)).mpr (List.mem_cons_self c cs)
            rw [hcs] at hmem
            cases hmem
      · exfalso
        rw [cores_to_cpulist, hcs] at hemp
        dsimp only at hemp
        rcases hbr : buildRuns h0 h0 t0 with _ | ⟨r, rs⟩
        · exact buildRuns_ne_nil t0 h0 h0 hbr
        · rw [hbr, List.map_cons] at hemp
          cases hrs : List.map renderRun rs with
          | nil =>
              rw [hrs] at hemp
              exact renderRun_ne_nil r hemp
          | cons q qs =>
              rw [hrs, joinWith_cons₂] at hemp
              simp [List.append_eq_nil] at hemp
    · intro h
      subst h
      rfl

/-! ### The affinity mask encoding -/

/-- The sixteen (lowercase) hexadecimal digit characters. -/
def hexDigits : List Char :=
  decDigits ++ ['a', 'b', 'c', 'd', 'e', 'f']

/-- The hex digits of `n`, least significant first (empty for 0). -/
def toHexRev : Nat → List Char
  | 0 => []
  | n + 1 => Nat.digitChar ((n + 1) % 16) :: toHexRev ((n + 1) / 16)
decreasing_by exact Nat.div_lt_self (Nat.succ_pos _) (by norm_num)

/-- The hexadecimal numeral of a mask value, as `taskset` prints masks
(lowercase, no prefix): the encoder of the affinity-mask format. -/
def natToHex (n : Nat) : List Char :=
  if n = 0 then ['0'] else (toHexRev n).reverse

/-- One hex digit as Python `int(s, 16)` reads it, either case. -/
def hexVal (c : Char) : Option Nat :=
  if c = '0' then some 0 else if c = '1' then some 1
  else if c = '2' then some 2 else if c = '3' then some 3
  else if c = '4' then some 4 else if c = '5' then some 5
  else if c = '6' then some 6 else if c = '7' then some 7
  else if c = '8' then some 8 else if c = '9' then some 9
  else if c = 'a' then some 10 else if c = 'A' then some 10
  else if c = 'b' then some 11 else if c = 'B' then some 11
  else if c = 'c' then some 12 else if c = 'C' then some 12
  else if c = 'd' then some 13 else if c = 'D' then some 13
  else if c = 'e' then some 14 else if c = 'E' then some 14
  else if c = 'f' then some 15 else if c = 'F' then some 15
  else none

/-- Python `int(s, 16)` on a plain hex numeral: `none` (ValueError) on the
empty string or on a non-hex character. -/
def parseHex (l : List Char) : Option Nat :=
  if l.isEmpty then none
  else l.foldl (fun acc c => acc.bind fun a => (hexVal c).map fun v => 16 * a + v) (some 0)

/-- `mask_to_cores(hex_mask, num_cores)`: commas removed, the rest parsed
base 16 (`ValueError` gives `[]`), then the cores `i < num_cores` with
`mask & (1 << i)` non-zero, in increasing order. -/
def mask_to_cores (hex_mask : List Char) (num_cores : Nat) : List Nat :=
  match parseHex (hex_mask.filter (fun c => !(c == ','))) with
  | none => []
  | some mask => (List.range num_cores).filter (fun i => mask &&& (1 <<< i) != 0)

theorem digitChar_mem_hexDigits (d : Nat) (h : d < 16) : Nat.digitChar d ∈ hexDigits := by
  interval_cases d <;> decide

theorem hexVal_digitChar (d : Nat) (h : d < 16) : hexVal (Nat.digitChar d) = some d := by
  interval_cases d <;> decide

theorem hexDigit_ne_comma (c : Char) (h : c ∈ hexDigits) : c ≠ ',' := by
  fin_cases h <;> decide

theorem toHexRev_mem (n : Nat) : ∀ c ∈ toHexRev n, c ∈ hexDigits := by
  induction n using Nat.strong_induction_on with
  | _ n ih =>
      match n with
      | 0 => intro c hc; rw [toHexRev] at hc; cases hc
      | m + 1 =>
          intro c hc
          rw [toHexRev] at hc
          rcases List.mem_cons.mp hc with rfl | hc
          · exact digitChar_mem_hexDigits _ (Nat.mod_lt _ (by norm_num))
          · exact ih ((m + 1) / 16) (Nat.div_lt_self (Nat.succ_pos m) (by norm_num)) c hc

theorem natToHex_mem (n : Nat) : ∀ c ∈ natToHex n, c ∈ hexDigits := by
  rw [natToHex]
  split_ifs with h
  · intro c hc
    rcases List.mem_singleton.mp hc with rfl
    decide
  · intro c hc
    exact toHexRev_mem n c (List.mem_reverse.mp hc)

theorem hexFold_append (a : Nat) (l : List Char) (c : Char) :
    (l ++ [c]).foldl (fun acc c => acc.bind fun a => (hexVal c).map fun v => 16 * a + v)
        (some a) =
      (l.foldl (fun acc c => acc.bind fun a => (hexVal c).map fun v => 16 * a + v)
        (some a)).bind fun x => (hexVal c).map fun v => 16 * x + v := by
  rw [List.foldl_append]
  rfl

theorem hexFold_toHexRev (n : Nat) :
    (toHexRev n).reverse.foldl
        (fun acc c => acc.bind fun a => (hexVal c).map fun v => 16 * a + v) (some 0) =
      some n := by
  induction n using Nat.strong_induction_on with
  | _ n ih =>
      match n with
      | 0 => rw [toHexRev]; rfl
      | m + 1 =>
          rw [toHexRev, List.reverse_cons, hexFold_append,
            ih ((m + 1) / 16) (Nat.div_lt_self (Nat.succ_pos m) (by norm_num)),
            hexVal_digitChar _ (Nat.mod_lt _ (by norm_num))]
          show some (16 * ((m + 1) / 16) + (m + 1) % 16) = some (m + 1)
          congr 1
          omega

theorem parseHex_natToHex (n : Nat) : parseHex (natToHex n) = some n := by
  rw [natToHex]
  split_ifs with h
  · subst h; rfl
  · have hne : (toHexRev n).reverse.isEmpty = false := by
      rcases hq : (toHexRev n).reverse with _ | ⟨c, cs⟩
      · exfalso
        have h2 : toHexRev n = [] := by
          have := congrArg List.reverse hq
          rwa [List.reverse_reverse, List.reverse_nil] at this
        match n, h, h2 with
        | m + 1, _, h2 => rw [toHexRev] at h2; cases h2
      · rfl
    rw [parseHex, hne]
    show (toHexRev n).reverse.foldl _ (some 0) = some n
    exact hexFold_toHexRev n

theorem and_shift_ne_zero (m i : Nat) : (m &&& (1 <<< i) != 0) = m.testBit i := by
  rw [Nat.one_shiftLeft, Nat.and_two_pow]
  cases ht : m.testBit i
  · simp
  · have hp : (2 : Nat) ^ i ≠ 0 := Nat.pos_iff_ne_zero.mp (Nat.pos_pow_of_pos i (by norm_num))
    simp [hp]

/-- C8: round-trip of the affinity mask encoding: for every core count `N`,
every subset `S` of `{0,…,N-1}` and every mask value whose bits are exactly
`S`, decoding the hexadecimal rendering of the mask against `N` returns
exactly `S` as the increasing list of its elements. -/
theorem mask_roundtrip (N : Nat) (S : Finset Nat) (m : Nat)
    (hS : ∀ i ∈ S, i < N)
    (hm : ∀ i, m.testBit i = true ↔ i ∈ S) :
    mask_to_cores (natToHex m) N = S.sort (· ≤ ·) := by
  have hfilter : (natToHex m).filter (fun c => !(c == ',')) = natToHex m :=
    List.filter_eq_self.mpr (fun c hc => by
      have hcc : c ≠ ',' := hexDigit_ne_comma c (natToHex_mem m c hc)
      simp [hcc])
  rw [mask_to_cores, hfilter, parseHex_natToHex]
  dsimp only
  have hcongr : (List.range N).filter (fun i => m &&& (1 <<< i) != 0) =
      (List.range N).filter (fun i => decide (i ∈ S)) := by
    apply List.filter_congr
    intro i _
    rw [and_shift_ne_zero, Bool.eq_iff_iff, decide_eq_true_eq]
    exact hm i
  rw [hcongr]
  apply sorted_lt_ext
  · exact List.Pairwise.filter _ (List.sorted_lt_range N)
  · exact Finset.sort_sorted_lt S
  · intro x
    rw [List.mem_filter, Finset.mem_sort, List.mem_range, decide_eq_true_eq]
    constructor
    · rintro ⟨-, hx⟩; exact hx
    · intro hx; exact ⟨hS x hx, hx⟩

theorem mask_roundtrip_witness :
    (∀ i ∈ ({0, 2} : Finset Nat), i < 4) ∧
    mask_to_cores (natToHex 5) 4 = ({0, 2} : Finset Nat).sort (· ≤ ·) := by
  have hm : ∀ i, Nat.testBit 5 i = true ↔ i ∈ ({0, 2} : Finset Nat) := by
    intro i
    match i with
    | 0 => decide
    | 1 => decide
    | 2 => decide
    | j + 3 =>
        constructor
        · intro h
          exfalso
          have hfb : Nat.testBit 5 (j + 3) = false := by
            apply Nat.testBit_lt_two_pow
            calc (5 : Nat) < 2 ^ 3 := by norm_num
              _ ≤ 2 ^ (j + 3) := Nat.pow_le_pow_right (by norm_num) (by omega)
          rw [hfb] at h
          cases h
        · intro h
          exfalso
          rcases Finset.mem_insert.mp h with h | h
          · omega
          · rw [Finset.mem_singleton] at h
            omega
  exact ⟨by decide, mask_roundtrip 4 {0, 2} 5 (by decide) hm⟩

end TidyCpu
